import Mathlib

/-!
Shallow embedding of the fonts-downloader server (src/server/app.js).

Strings are modelled as lists of characters (`Str`); the character-level
case functions model the ASCII fragment of the JavaScript string methods,
matching Lean core's basic-latin case mappings.  The file system is an
association list from paths to byte lists, and the network is an explicit
environment of oracles; network activity is counted per request.
-/

namespace FontsDownloader

abbrev Str := List Char
abbrev Bytes := List Nat

/-- File-system model: association list from path to file bytes. -/
abbrev FS := List (Str × Bytes)

/-- Lookup of a path in the file-system model (fs.existsSync plus read). -/
def fsFind : FS → Str → Option Bytes
  | [], _ => none
  | (q, b) :: t, p => if q = p then some b else fsFind t p

/-- The fixed cache root, FONTS_DIR in app.js (line 17). -/
def FONTS_DIR : Str := ("D:/fonts-cache").data

/-- One step of family.replace with a whitespace-run pattern and a hyphen:
the Bool records whether the previous character was inside a whitespace run
(app.js line 81). -/
def replWs : Bool → Str → Str
  | _, [] => []
  | inRun, c :: cs =>
    if c.isWhitespace then
      if inRun then replWs true cs else '-' :: replWs true cs
    else c :: replWs false cs

/-- safeFamily in app.js (line 81): every whitespace run becomes one hyphen. -/
def safeName (s : Str) : Str := replWs false s

/-- The on-disk cache path built in downloadAndSaveFont (lines 81-90). -/
def cachePath (family wStr format : Str) : Str :=
  FONTS_DIR ++ '/' :: safeName family ++ '/' :: safeName family ++ '-' :: wStr ++ '.' :: format

/-- The archive entry name built in streamFontsAsZip (lines 128-130). -/
def entryName (family wStr format : Str) : Str :=
  safeName family ++ '/' :: safeName family ++ '-' :: wStr ++ '.' :: format

/-! Weight parsing: the handlers run split on commas and map parseInt over
the pieces (app.js lines 152-154 and 171-173).  A JavaScript number that may
be NaN is modelled as an Option Int, with none for NaN. -/

/-- JavaScript number possibly NaN: none models NaN. -/
abbrev JsNum := Option Int

/-- Leading decimal-digit run of a string, as a number; none when there is
no leading digit (parseInt returns NaN then). -/
def digitsToNat (l : Str) : Option Nat :=
  let ds := l.takeWhile Char.isDigit
  if ds.isEmpty then none
  else some (ds.foldl (fun a c => 10 * a + (c.toNat - 48)) 0)

/-- parseInt(s, 10): skip leading whitespace, optional sign, then the
leading digit run; NaN when no digits follow. -/
def jsParseInt (s : Str) : JsNum :=
  match s.dropWhile Char.isWhitespace with
  | '+' :: rest => (digitsToNat rest).map (fun n => (n : Int))
  | '-' :: rest => (digitsToNat rest).map (fun n => -(n : Int))
  | rest => (digitsToNat rest).map (fun n => (n : Int))

/-- String.prototype.split with a comma separator. -/
def splitCommaGo : Str → Str → List Str
  | [], acc => [acc.reverse]
  | c :: cs, acc =>
    if c = ',' then acc.reverse :: splitCommaGo cs [] else splitCommaGo cs (c :: acc)

/-- split(",") on a string; the empty string yields one empty piece. -/
def splitComma (s : Str) : List Str := splitCommaGo s []

/-- The default weights csv used when the weights query is falsy. -/
def defaultWeightsCsv : Str := ("100,200,300,400,500,600,700,800,900").data

/-- JavaScript falsiness of an optional string query parameter: absent
(undefined) or the empty string. -/
def jsFalsy (q : Option Str) : Bool :=
  match q with
  | none => true
  | some s => s.isEmpty

/-- Weights as computed by both handlers (app.js lines 152-154, 171-173):
the or-default fires on any falsy weights value, absent or empty string;
otherwise split on commas and map parseInt over every piece.  No piece is
ever dropped. -/
def parseWeights (q : Option Str) : List JsNum :=
  (splitComma (if jsFalsy q then defaultWeightsCsv else q.getD [])).map jsParseInt

/-- Rendering of a JavaScript number into a template string, NaN included. -/
def render (w : JsNum) : Str :=
  match w with
  | none => ("NaN").data
  | some n => (toString n).data

/-! Name normalization (app.js lines 180-184): trim, split on whitespace
runs, capitalize each word, join with single spaces.  The word[0] access of
an empty word is undefined and makes toUpperCase throw, so the whole
normalization can fail: none models the thrown TypeError. -/

/-- String.prototype.trim of the left end. -/
def trimLeft (s : Str) : Str := s.dropWhile Char.isWhitespace

/-- String.prototype.trim: drop whitespace from both ends. -/
def jsTrim (s : Str) : Str := ((trimLeft s).reverse.dropWhile Char.isWhitespace).reverse

/-- split(/\s+/) after the first field: a whitespace run closes the current
field; the Bool is true while skipping the rest of a run. -/
def splitWsAux : Str → Str → Bool → List Str
  | [], _, true => [[]]
  | [], acc, false => [acc.reverse]
  | c :: cs, acc, true =>
    if c.isWhitespace then splitWsAux cs acc true
    else splitWsAux cs [c] false
  | c :: cs, acc, false =>
    if c.isWhitespace then acc.reverse :: splitWsAux cs [] true
    else splitWsAux cs (c :: acc) false

/-- split(/\s+/) on a string; the empty string yields one empty field, and a
leading or trailing whitespace run yields an empty field at that end. -/
def splitWs (s : Str) : List Str := splitWsAux s [] false

/-- Basic-latin model of toUpperCase on one character, as in Lean core. -/
def jsToUpper (c : Char) : Char :=
  if 97 ≤ c.toNat ∧ c.toNat ≤ 122 then Char.ofNat (c.toNat - 32) else c

/-- Basic-latin model of toLowerCase on one character. -/
def jsToLower (c : Char) : Char :=
  if 65 ≤ c.toNat ∧ c.toNat ≤ 90 then Char.ofNat (c.toNat + 32) else c

/-- word[0].toUpperCase() + word.slice(1).toLowerCase(); none models the
TypeError thrown when the word is empty. -/
def capitalizeWord : Str → Option Str
  | [] => none
  | c :: cs => some (jsToUpper c :: cs.map jsToLower)

/-- The map over words in the normalization; the first TypeError aborts. -/
def mapMcap : List Str → Option (List Str)
  | [] => some []
  | w :: ws =>
    match capitalizeWord w, mapMcap ws with
    | some c, some cs => some (c :: cs)
    | _, _ => none

/-- Array.prototype.join with a one-character separator. -/
def joinSep (sep : Char) : List Str → Str
  | [] => []
  | [w] => w
  | w :: x :: t => w ++ sep :: joinSep sep (x :: t)

/-- The whole normalization of app.js lines 180-184; none models the thrown
TypeError on a whitespace-only input. -/
def normalize (s : Str) : Option Str :=
  match mapMcap (splitWs (jsTrim s)) with
  | none => none
  | some caps => some (joinSep ' ' caps)

/-! The network environment and the resolve-download-archive pipeline. -/

/-- Oracles for the two kinds of upstream requests.  resolve models one css
request to the typography service returning the first asset url matching
the format, or none when the request fails or no url matches (app.js lines
49-78); fetch models the byte transfer of a resolved url (line 97). -/
structure NetEnv where
  resolve : Str → Str → Str → Option Str
  fetch : Str → Option Bytes

/-- downloadAndSaveFont (app.js lines 80-100): derive the cache path, serve
the existing file without any network call, otherwise fetch the bytes (one
network call) and write them directly to the final path.  Returns the file
system afterwards, the returned path on success, and the network calls
made. -/
def downloadAndSaveFont (env : NetEnv) (fs : FS) (family wStr format url : Str) :
    FS × Option Str × Nat :=
  let filePath := cachePath family wStr format
  match fsFind fs filePath with
  | some _ => (fs, some filePath, 0)
  | none =>
    match env.fetch url with
    | some bytes => ((filePath, bytes) :: fs, some filePath, 1)
    | none => (fs, none, 1)

/-- One iteration of the per-weight loop body (app.js lines 119-133): the
css resolution request always happens first and counts one network call,
then the download step; any failure is caught and yields no entry. -/
def processItem (env : NetEnv) (fs : FS) (family format wStr : Str) :
    FS × Option Str × Nat :=
  match env.resolve format family wStr with
  | none => (fs, none, 1)
  | some url =>
    match downloadAndSaveFont env fs family wStr format url with
    | (fs1, some _, c) => (fs1, some (entryName family wStr format), 1 + c)
    | (fs1, none, c) => (fs1, none, 1 + c)

/-- The per-weight loop of one family (app.js lines 118-134 and 206-222):
entries of successful items in order, with failures skipped. -/
def processWeights (env : NetEnv) (fs : FS) (family format : Str) :
    List JsNum → FS × List Str × Nat
  | [] => (fs, [], 0)
  | w :: ws =>
    match processItem env fs family format (render w) with
    | (fs1, eOpt, c1) =>
      match processWeights env fs1 family format ws with
      | (fs2, es, c2) => (fs2, eOpt.toList ++ es, c1 + c2)

/-- The family loop of streamFontsAsZip (app.js lines 116-138). -/
def processFamilies (env : NetEnv) (fs : FS) (format : Str) (weights : List JsNum) :
    List Str → FS × List Str × Nat
  | [] => (fs, [], 0)
  | fam :: fams =>
    match processWeights env fs fam format weights with
    | (fs1, es1, c1) =>
      match processFamilies env fs1 format weights fams with
      | (fs2, es2, c2) => (fs2, es1 ++ es2, c1 + c2)

/-- Result of an archive stream: final file system, entry names in order,
network calls made, and whether archive.finalize was reached. -/
structure ZipOut where
  fs : FS
  entries : List Str
  netCalls : Nat
  finalized : Bool
  deriving DecidableEq

/-- streamFontsAsZip (app.js lines 102-141): run every (family, weight)
pair, then finalize the archive unconditionally. -/
def streamFontsAsZip (env : NetEnv) (fs : FS) (selection : List Str)
    (format : Str) (weights : List JsNum) : ZipOut :=
  match processFamilies env fs format weights selection with
  | (fs1, es, c) => ⟨fs1, es, c, true⟩

/-! pickRandomFonts (app.js lines 40-47): a while loop drawing random list
members into a set until it holds n of them.  The random source is an
explicit sequence of naturals reduced modulo the list length, and the loop
is run on fuel: none models a run that has not yet terminated. -/

/-- The while loop of pickRandomFonts, with explicit fuel and a counter
into the random sequence; the picked set is a duplicate-free list in
insertion order, as a JavaScript Set iterates. -/
def pickRun (fontList : List Str) (n : Nat) (r : Nat → Nat) :
    Nat → Nat → List Str → Option (List Str)
  | 0, _, _ => none
  | fuel + 1, k, picked =>
    if picked.length < n then
      let x := fontList.getD (r k % fontList.length) []
      pickRun fontList n r fuel (k + 1) (if x ∈ picked then picked else picked ++ [x])
    else some picked

/-- pickRandomFonts itself, started on an empty set. -/
def pickRandomFonts (fontList : List Str) (n : Nat) (r : Nat → Nat) (fuel : Nat) :
    Option (List Str) :=
  pickRun fontList n r fuel 0 []

/-! The two request handlers. -/

/-- What a handler sends back: an error response produced through the error
middleware (app.js lines 230-233), or a streamed zip response. -/
inductive Response where
  | error (status : Nat) (message : Str)
  | zip (entries : List Str) (finalized : Bool)
  deriving DecidableEq

/-- Outcome of one request: the response, the file system afterwards, and
the network calls made during the request. -/
structure Outcome where
  response : Response
  fs : FS
  netCalls : Nat
  deriving DecidableEq

/-- The VALID_FORMATS membership test of validateFormat (app.js lines
24-31); an absent query parameter is never a member. -/
def validFormat (q : Option Str) : Bool :=
  match q with
  | some s => decide (s = ("woff2").data) || decide (s = ("ttf").data)
  | none => false

/-- Error message of validateFormat. -/
def invalidFormatMsg : Str := ("Invalid format. Must be woff2 or ttf.").data

/-- Error message of the missing-name check (app.js line 176). -/
def nameRequiredMsg : Str := ("Font name is required").data

/-- Error message of the count check (app.js line 157). -/
def invalidCountMsg : Str := ("count must be one of 10,20,...,100").data

/-- Error message of the unknown-family check (app.js line 189). -/
def notFoundMsg : Str := ("Font not found.").data

/-- Message of the TypeError thrown by normalization on an empty word; the
middleware passes it through with status 500. -/
def typeErrorMsg : Str := ("Cannot read properties of undefined").data

/-- The /download-by-name handler (app.js lines 167-228): validate the
format, default and parse the weights, require a truthy name, normalize it
(a thrown TypeError becomes a 500 response), check the catalog, then build
the archive over the single family and finalize it. -/
def downloadByName (env : NetEnv) (fs : FS) (fontList : List Str)
    (formatQ nameQ weightsQ : Option Str) : Outcome :=
  if validFormat formatQ then
    let format := formatQ.getD []
    let weights := parseWeights weightsQ
    if jsFalsy nameQ then ⟨.error 400 nameRequiredMsg, fs, 0⟩
    else
      match normalize (nameQ.getD []) with
      | none => ⟨.error 500 typeErrorMsg, fs, 0⟩
      | some normalized =>
        if normalized ∈ fontList then
          match processWeights env fs normalized format weights with
          | (fs1, es, c) => ⟨.zip es true, fs1, c⟩
        else ⟨.error 404 notFoundMsg, fs, 0⟩
  else ⟨.error 400 invalidFormatMsg, fs, 0⟩

/-- The /download-random handler (app.js lines 148-165): validate the
format, parse count and weights, check the count range, draw the random
selection (none models the unbounded loop not terminating within the
fuel), then stream the archive. -/
def downloadRandom (env : NetEnv) (fs : FS) (fontList : List Str) (r : Nat → Nat)
    (fuel : Nat) (formatQ countQ weightsQ : Option Str) : Option Outcome :=
  if validFormat formatQ then
    let format := formatQ.getD []
    let count := match countQ with
      | none => (none : JsNum)
      | some s => jsParseInt s
    let weights := parseWeights weightsQ
    match count with
    | none => some ⟨.error 400 invalidCountMsg, fs, 0⟩
    | some n =>
      if n < 10 ∨ 100 < n ∨ n % 10 ≠ 0 then some ⟨.error 400 invalidCountMsg, fs, 0⟩
      else
        match pickRandomFonts fontList n.toNat r fuel with
        | none => none
        | some selection =>
          match streamFontsAsZip env fs selection format weights with
          | z => some ⟨.zip z.entries z.finalized, z.fs, z.netCalls⟩
  else some ⟨.error 400 invalidFormatMsg, fs, 0⟩

/-! Write-operation traces, recording how the persist step of a cache fill
touches the file system. -/

/-- A file-system mutation: a direct write of bytes to a path, or a rename
of one path onto another. -/
inductive FsOp where
  | write (path : Str) (bytes : Bytes)
  | rename (src dst : Str)
  deriving DecidableEq

/-- The file-system operations performed by downloadAndSaveFont (app.js
lines 92-99): nothing on a hit or a failed fetch, and one direct
writeFileSync to the final cache path on a successful fill. -/
def downloadAndSaveFontOps (env : NetEnv) (fs : FS) (family wStr format url : Str) :
    List FsOp :=
  let filePath := cachePath family wStr format
  match fsFind fs filePath with
  | some _ => []
  | none =>
    match env.fetch url with
    | some bytes => [.write filePath bytes]
    | none => []

/-- Modelled from the spec: the idempotent-write discipline of section 5,
by which fetched bytes are first written to a temporary location distinct
from the final path and then atomically published onto the final path by a
rename.  The repository code has no such step; this predicate states the
discipline over a write trace so it can be compared with the trace the
source produces. -/
def tempThenPublish (ops : List FsOp) (finalPath : Str) : Prop :=
  ∃ i j : Fin ops.length, (i : Nat) < (j : Nat) ∧
    ∃ tmp bytes, tmp ≠ finalPath ∧
      ops.get i = .write tmp bytes ∧ ops.get j = .rename tmp finalPath

/-- The outcome an item has in an environment where every resolvable url
is also fetchable: none when resolution fails, otherwise the entry name
the item contributes; used to characterize archive contents. -/
def itemEntry (env : NetEnv) (family format : Str) (w : JsNum) : Option Str :=
  match env.resolve format family (render w) with
  | none => none
  | some url =>
    match env.fetch url with
    | none => none
    | some _ => some (entryName family (render w) format)

/-- Test environment: every stylesheet resolves to a url naming the family
and weight, and every fetch succeeds. -/
def envAll : NetEnv := ⟨fun _ fam w => some (fam ++ w), fun _ => some [9]⟩

/-- Test environment: weight 200 fails to resolve, every other weight
resolves to itself and fetches one byte. -/
def envSkip200 : NetEnv :=
  ⟨fun _ _ w => if w = ("200").data then none else some w, fun _ => some [1]⟩

/-- Test environment: no stylesheet resolves and no url fetches. -/
def envNone : NetEnv := ⟨fun _ _ _ => none, fun _ => none⟩

end FontsDownloader


namespace FontsDownloader

/-! Character-level lemmas for the basic-latin case mappings. -/

theorem char_toNat_ofNat (n : Nat) (h : n.isValidChar) : (Char.ofNat n).toNat = n := by
  rw [Char.ofNat, dif_pos h]; rfl

theorem isWhitespace_toNat {c : Char} (h : c.isWhitespace = true) :
    c.toNat = 32 ∨ c.toNat = 9 ∨ c.toNat = 13 ∨ c.toNat = 10 := by
  unfold Char.isWhitespace at h
  simp only [Bool.or_eq_true, decide_eq_true_eq] at h
  rcases h with ((h | h) | h) | h <;> subst h <;> decide

theorem ws_eq_false_of_toNat {c : Char} (h32 : c.toNat ≠ 32) (h9 : c.toNat ≠ 9)
    (h13 : c.toNat ≠ 13) (h10 : c.toNat ≠ 10) : c.isWhitespace = false := by
  cases hw : c.isWhitespace
  · rfl
  · rcases isWhitespace_toNat hw with h | h | h | h <;> simp_all

theorem jsToUpper_idem (c : Char) : jsToUpper (jsToUpper c) = jsToUpper c := by
  unfold jsToUpper
  by_cases h : 97 ≤ c.toNat ∧ c.toNat ≤ 122
  · rw [if_pos h]
    have ht : (Char.ofNat (c.toNat - 32)).toNat = c.toNat - 32 :=
      char_toNat_ofNat _ (Or.inl (by omega))
    rw [ht, if_neg (by omega)]
  · rw [if_neg h, if_neg h]

theorem jsToLower_idem (c : Char) : jsToLower (jsToLower c) = jsToLower c := by
  unfold jsToLower
  by_cases h : 65 ≤ c.toNat ∧ c.toNat ≤ 90
  · rw [if_pos h]
    have ht : (Char.ofNat (c.toNat + 32)).toNat = c.toNat + 32 :=
      char_toNat_ofNat _ (Or.inl (by omega))
    rw [ht, if_neg (by omega)]
  · rw [if_neg h, if_neg h]

theorem ws_jsToUpper (c : Char) : (jsToUpper c).isWhitespace = c.isWhitespace := by
  unfold jsToUpper
  by_cases h : 97 ≤ c.toNat ∧ c.toNat ≤ 122
  · rw [if_pos h]
    have ht : (Char.ofNat (c.toNat - 32)).toNat = c.toNat - 32 :=
      char_toNat_ofNat _ (Or.inl (by omega))
    have h1 : (Char.ofNat (c.toNat - 32)).isWhitespace = false :=
      ws_eq_false_of_toNat (by rw [ht]; omega) (by rw [ht]; omega)
        (by rw [ht]; omega) (by rw [ht]; omega)
    have h2 : c.isWhitespace = false :=
      ws_eq_false_of_toNat (by omega) (by omega) (by omega) (by omega)
    rw [h1, h2]
  · rw [if_neg h]

theorem ws_jsToLower (c : Char) : (jsToLower c).isWhitespace = c.isWhitespace := by
  unfold jsToLower
  by_cases h : 65 ≤ c.toNat ∧ c.toNat ≤ 90
  · rw [if_pos h]
    have ht : (Char.ofNat (c.toNat + 32)).toNat = c.toNat + 32 :=
      char_toNat_ofNat _ (Or.inl (by omega))
    have h1 : (Char.ofNat (c.toNat + 32)).isWhitespace = false :=
      ws_eq_false_of_toNat (by rw [ht]; omega) (by rw [ht]; omega)
        (by rw [ht]; omega) (by rw [ht]; omega)
    have h2 : c.isWhitespace = false :=
      ws_eq_false_of_toNat (by omega) (by omega) (by omega) (by omega)
    rw [h1, h2]
  · rw [if_neg h]

theorem jsToLower_comp : jsToLower ∘ jsToLower = jsToLower := funext jsToLower_idem

/-! Lemmas about capitalizeWord. -/

theorem capitalizeWord_cap {w cw : Str} (h : capitalizeWord w = some cw) :
    capitalizeWord cw = some cw := by
  cases w with
  | nil => simp [capitalizeWord] at h
  | cons c cs =>
    simp only [capitalizeWord, Option.some.injEq] at h
    subst h
    simp [capitalizeWord, jsToUpper_idem, List.map_map, jsToLower_comp]

theorem capitalizeWord_ne_nil {w cw : Str} (h : capitalizeWord w = some cw) : cw ≠ [] := by
  cases w with
  | nil => simp [capitalizeWord] at h
  | cons c cs =>
    simp only [capitalizeWord, Option.some.injEq] at h
    subst h; simp

theorem capitalizeWord_not_ws {w cw : Str} (h : capitalizeWord w = some cw)
    (hw : ∀ c ∈ w, c.isWhitespace = false) : ∀ c ∈ cw, c.isWhitespace = false := by
  cases w with
  | nil => simp [capitalizeWord] at h
  | cons c cs =>
    simp only [capitalizeWord, Option.some.injEq] at h
    subst h
    intro d hd
    rcases List.mem_cons.mp hd with rfl | hd
    · rw [ws_jsToUpper]; exact hw c (List.mem_cons_self c cs)
    · rcases List.mem_map.mp hd with ⟨e, he, rfl⟩
      rw [ws_jsToLower]; exact hw e (List.mem_cons_of_mem c he)

/-! Lemmas about splitWs, jsTrim and joinSep. -/

theorem splitWsAux_ne_nil : ∀ (s acc : Str) (b : Bool), splitWsAux s acc b ≠ [] := by
  intro s
  induction s with
  | nil => intro acc b; cases b <;> simp [splitWsAux]
  | cons c cs ih =>
    intro acc b
    cases b <;> simp only [splitWsAux] <;> split
    · simp
    · exact ih _ false
    · exact ih _ true
    · exact ih _ false

theorem splitWsAux_not_ws : ∀ (s acc : Str) (b : Bool),
    (∀ c ∈ acc, c.isWhitespace = false) →
    ∀ w ∈ splitWsAux s acc b, ∀ c ∈ w, c.isWhitespace = false := by
  intro s
  induction s with
  | nil =>
    intro acc b hacc w hw c hc
    cases b <;> simp only [splitWsAux, List.mem_singleton] at hw <;> subst hw
    · exact hacc c (List.mem_reverse.mp hc)
    · simp at hc
  | cons d ds ih =>
    intro acc b hacc w hw
    cases b <;> simp only [splitWsAux] at hw
    · split at hw
      case isTrue hd =>
        rcases List.mem_cons.mp hw with rfl | hw
        · intro c hc; exact hacc c (List.mem_reverse.mp hc)
        · exact ih [] true (by simp) w hw
      case isFalse hd =>
        exact ih (d :: acc) false
          (by intro c hc
              rcases List.mem_cons.mp hc with rfl | hc
              · simpa using hd
              · exact hacc c hc) w hw
    · split at hw
      case isTrue hd => exact ih acc true hacc w hw
      case isFalse hd =>
        exact ih [d] false (by intro c hc; simp at hc; subst hc; simpa using hd) w hw


theorem splitWsAux_all_not_ws : ∀ (w acc : Str), (∀ c ∈ w, c.isWhitespace = false) →
    splitWsAux w acc false = [acc.reverse ++ w] := by
  intro w
  induction w with
  | nil => intro acc _; simp [splitWsAux]
  | cons c cs ih =>
    intro acc hw
    have hc : c.isWhitespace = false := hw c (List.mem_cons_self c cs)
    simp only [splitWsAux, hc, Bool.false_eq_true, if_false]
    rw [ih (c :: acc) (fun d hd => hw d (List.mem_cons_of_mem c hd))]
    simp

theorem splitWsAux_append_word : ∀ (w : Str), (∀ c ∈ w, c.isWhitespace = false) →
    ∀ (s acc : Str), splitWsAux (w ++ s) acc false = splitWsAux s (w.reverse ++ acc) false := by
  intro w
  induction w with
  | nil => intro _ s acc; simp
  | cons c cs ih =>
    intro hw s acc
    have hc : c.isWhitespace = false := hw c (List.mem_cons_self c cs)
    simp only [List.cons_append, splitWsAux, hc, Bool.false_eq_true, if_false, List.append_eq]
    rw [ih (fun d hd => hw d (List.mem_cons_of_mem c hd)) s (c :: acc)]
    simp [List.append_assoc]

theorem splitWsAux_skip_eq (c : Char) (cs : Str) (h : c.isWhitespace = false) (acc : Str) :
    splitWsAux (c :: cs) acc true = splitWsAux (c :: cs) [] false := by
  simp [splitWsAux, h]

theorem splitWsAux_ws_head (c : Char) (cs : Str) (h : c.isWhitespace = true) (acc : Str) :
    splitWsAux (c :: cs) acc false = acc.reverse :: splitWsAux cs [] true := by
  simp [splitWsAux, h]

theorem joinSep_cons_head (sep : Char) (c : Char) (cs : Str) (t : List Str) :
    ∃ r, joinSep sep ((c :: cs) :: t) = c :: r := by
  cases t with
  | nil => exact ⟨cs, rfl⟩
  | cons y t => exact ⟨cs ++ sep :: joinSep sep (y :: t), rfl⟩

theorem splitWs_joinSep : ∀ (caps : List Str), caps ≠ [] →
    (∀ w ∈ caps, w ≠ [] ∧ ∀ c ∈ w, c.isWhitespace = false) →
    splitWs (joinSep ' ' caps) = caps := by
  intro caps
  induction caps with
  | nil => intro h; exact absurd rfl h
  | cons w t ih =>
    intro _ hcaps
    obtain ⟨hwne, hwws⟩ := hcaps w (List.mem_cons_self w t)
    cases t with
    | nil =>
      show splitWsAux (joinSep ' ' [w]) [] false = [w]
      have h1 : joinSep ' ' [w] = w := rfl
      rw [h1, splitWsAux_all_not_ws w [] hwws]
      simp
    | cons x t2 =>
      show splitWsAux (joinSep ' ' (w :: x :: t2)) [] false = w :: x :: t2
      have h1 : joinSep ' ' (w :: x :: t2) = w ++ ' ' :: joinSep ' ' (x :: t2) := rfl
      rw [h1, splitWsAux_append_word w hwws]
      rw [splitWsAux_ws_head ' ' _ (by decide)]
      obtain ⟨hxne, _⟩ := hcaps x (List.mem_cons_of_mem w (List.mem_cons_self x t2))
      obtain ⟨x0, xs, rfl⟩ := List.exists_cons_of_ne_nil hxne
      obtain ⟨r, hr⟩ := joinSep_cons_head ' ' x0 xs t2
      have hx0 : x0.isWhitespace = false :=
        (hcaps (x0 :: xs) (List.mem_cons_of_mem w (List.mem_cons_self _ t2))).2 x0
          (List.mem_cons_self x0 xs)
      rw [hr, splitWsAux_skip_eq x0 r hx0, ← hr]
      have h2 := ih (by simp) (fun v hv => hcaps v (List.mem_cons_of_mem w hv))
      simp only [splitWs] at h2
      rw [h2]
      simp

theorem joinSep_reverse_head : ∀ (caps : List Str), caps ≠ [] →
    (∀ w ∈ caps, w ≠ [] ∧ ∀ c ∈ w, c.isWhitespace = false) →
    ∃ a r, (joinSep ' ' caps).reverse = a :: r ∧ a.isWhitespace = false := by
  intro caps
  induction caps with
  | nil => intro h; exact absurd rfl h
  | cons w t ih =>
    intro _ hcaps
    cases t with
    | nil =>
      obtain ⟨hne, hws⟩ := hcaps w (List.mem_cons_self w [])
      obtain ⟨a, r, har⟩ : ∃ a r, w.reverse = a :: r := by
        cases hwr : w.reverse with
        | nil => rw [List.reverse_eq_nil_iff] at hwr; exact absurd hwr hne
        | cons a r => exact ⟨a, r, rfl⟩
      refine ⟨a, r, har, ?_⟩
      exact hws a (List.mem_reverse.mp (har ▸ List.mem_cons_self a r))
    | cons x t2 =>
      have h1 : joinSep ' ' (w :: x :: t2) = w ++ ' ' :: joinSep ' ' (x :: t2) := rfl
      obtain ⟨a, r, har, haw⟩ := ih (by simp) (fun v hv => hcaps v (List.mem_cons_of_mem w hv))
      refine ⟨a, r ++ ' ' :: w.reverse, ?_, haw⟩
      rw [h1, List.reverse_append, List.reverse_cons, har]
      simp

theorem jsTrim_joinSep (caps : List Str) (hne : caps ≠ [])
    (hcaps : ∀ w ∈ caps, w ≠ [] ∧ ∀ c ∈ w, c.isWhitespace = false) :
    jsTrim (joinSep ' ' caps) = joinSep ' ' caps := by
  obtain ⟨w, t, rfl⟩ := List.exists_cons_of_ne_nil hne
  obtain ⟨hwne, hws⟩ := hcaps w (List.mem_cons_self w t)
  obtain ⟨x0, xs, rfl⟩ := List.exists_cons_of_ne_nil hwne
  obtain ⟨r0, hr0⟩ := joinSep_cons_head ' ' x0 xs t
  have hx0 : x0.isWhitespace = false := hws x0 (List.mem_cons_self x0 xs)
  unfold jsTrim trimLeft
  rw [hr0, List.dropWhile_cons, if_neg (by simp [hx0]), ← hr0]
  obtain ⟨a, r, har, haw⟩ := joinSep_reverse_head _ (by simp) hcaps
  rw [har, List.dropWhile_cons, if_neg (by simp [haw]), ← har, List.reverse_reverse]

/-! Lemmas about mapMcap. -/

theorem mapMcap_length : ∀ {ws caps : List Str}, mapMcap ws = some caps →
    caps.length = ws.length := by
  intro ws
  induction ws with
  | nil => intro caps h; simp only [mapMcap, Option.some.injEq] at h; subst h; rfl
  | cons w t ih =>
    intro caps h
    cases hc : capitalizeWord w with
    | none => simp [mapMcap, hc] at h
    | some cw =>
      cases hm : mapMcap t with
      | none => simp [mapMcap, hc, hm] at h
      | some ct =>
        simp only [mapMcap, hc, hm, Option.some.injEq] at h
        subst h
        simp [ih hm]

theorem mapMcap_idem : ∀ {ws caps : List Str}, mapMcap ws = some caps →
    mapMcap caps = some caps := by
  intro ws
  induction ws with
  | nil => intro caps h; simp only [mapMcap, Option.some.injEq] at h; subst h; rfl
  | cons w t ih =>
    intro caps h
    cases hc : capitalizeWord w with
    | none => simp [mapMcap, hc] at h
    | some cw =>
      cases hm : mapMcap t with
      | none => simp [mapMcap, hc, hm] at h
      | some ct =>
        simp only [mapMcap, hc, hm, Option.some.injEq] at h
        subst h
        simp [mapMcap, capitalizeWord_cap hc, ih hm]

theorem mapMcap_fields : ∀ {ws caps : List Str}, mapMcap ws = some caps →
    (∀ w ∈ ws, ∀ c ∈ w, c.isWhitespace = false) →
    ∀ cw ∈ caps, cw ≠ [] ∧ ∀ c ∈ cw, c.isWhitespace = false := by
  intro ws
  induction ws with
  | nil =>
    intro caps h _
    simp only [mapMcap, Option.some.injEq] at h
    subst h; simp
  | cons w t ih =>
    intro caps h hws
    cases hc : capitalizeWord w with
    | none => simp [mapMcap, hc] at h
    | some cw =>
      cases hm : mapMcap t with
      | none => simp [mapMcap, hc, hm] at h
      | some ct =>
        simp only [mapMcap, hc, hm, Option.some.injEq] at h
        subst h
        intro v hv
        rcases List.mem_cons.mp hv with rfl | hv
        · exact ⟨capitalizeWord_ne_nil hc,
            capitalizeWord_not_ws hc (hws w (List.mem_cons_self w t))⟩
        · exact ih hm (fun u hu => hws u (List.mem_cons_of_mem w hu)) v hv

/-- C6: family-name normalization (trim, split on whitespace, capitalize
each word, rejoin with single spaces) is idempotent on every input on
which it is defined, and maps the example input accordingly. -/
theorem normalize_idempotent :
    (∀ x y : Str, normalize x = some y → normalize y = some y) ∧
    normalize (("roboto condensed").data) = some (("Roboto Condensed").data) := by
  constructor
  · intro x y h
    unfold normalize at h
    cases hm : mapMcap (splitWs (jsTrim x)) with
    | none => rw [hm] at h; cases h
    | some caps =>
      rw [hm] at h
      injection h with h
      subst h
      have hfields : ∀ w ∈ splitWs (jsTrim x), ∀ c ∈ w, c.isWhitespace = false :=
        splitWsAux_not_ws _ [] false (by simp)
      have hcaps := mapMcap_fields hm hfields
      have hne : caps ≠ [] := by
        intro hc
        apply splitWsAux_ne_nil (jsTrim x) [] false
        have hl := mapMcap_length hm
        rw [hc] at hl
        exact List.length_eq_zero.mp hl.symm
      unfold normalize
      rw [jsTrim_joinSep caps hne hcaps]
      rw [show splitWs (joinSep ' ' caps) = caps from splitWs_joinSep caps hne hcaps]
      rw [mapMcap_idem hm]
  · decide

/-- Witness for the idempotence claim at a concrete input. -/
theorem normalize_idempotent_witness :
    normalize (("Roboto Condensed").data) = some (("Roboto Condensed").data) :=
  normalize_idempotent.1 (("roboto condensed").data) (("Roboto Condensed").data) (by decide)

/-! Lemmas about the download pipeline. -/

theorem downloadAndSaveFont_eq_hit (env : NetEnv) (url : Str) {fs : FS}
    {family wStr format : Str} {b : Bytes}
    (h : fsFind fs (cachePath family wStr format) = some b) :
    downloadAndSaveFont env fs family wStr format url
      = (fs, some (cachePath family wStr format), 0) := by
  simp only [downloadAndSaveFont]
  rw [h]

theorem downloadAndSaveFont_eq_miss_fetch {env : NetEnv} {fs : FS}
    {family wStr format url : Str} {b : Bytes}
    (h : fsFind fs (cachePath family wStr format) = none)
    (hf : env.fetch url = some b) :
    downloadAndSaveFont env fs family wStr format url
      = ((cachePath family wStr format, b) :: fs,
          some (cachePath family wStr format), 1) := by
  simp only [downloadAndSaveFont]
  rw [h, hf]

theorem downloadAndSaveFont_eq_miss_nofetch {env : NetEnv} {fs : FS}
    {family wStr format url : Str}
    (h : fsFind fs (cachePath family wStr format) = none)
    (hf : env.fetch url = none) :
    downloadAndSaveFont env fs family wStr format url = (fs, none, 1) := by
  simp only [downloadAndSaveFont]
  rw [h, hf]

theorem processItem_resolve_none {env : NetEnv} {family format wStr : Str} (fs : FS)
    (h : env.resolve format family wStr = none) :
    processItem env fs family format wStr = (fs, none, 1) := by
  unfold processItem
  rw [h]

theorem processItem_success {env : NetEnv} {family format wStr url : Str} {b : Bytes}
    (fs : FS) (hr : env.resolve format family wStr = some url)
    (hf : env.fetch url = some b) :
    ∃ fs1 c, processItem env fs family format wStr
      = (fs1, some (entryName family wStr format), c) := by
  simp only [processItem, hr]
  cases hfind : fsFind fs (cachePath family wStr format) with
  | some b0 =>
    rw [downloadAndSaveFont_eq_hit env url hfind]
    exact ⟨fs, 1 + 0, rfl⟩
  | none =>
    rw [downloadAndSaveFont_eq_miss_fetch hfind hf]
    exact ⟨_, 1 + 1, rfl⟩

theorem processItem_calls_pos (env : NetEnv) (fs : FS) (family format wStr : Str) :
    1 ≤ (processItem env fs family format wStr).2.2 := by
  cases hr : env.resolve format family wStr with
  | none => rw [processItem_resolve_none fs hr]
  | some url =>
    simp only [processItem, hr]
    rcases hd : downloadAndSaveFont env fs family wStr format url with ⟨fs1, eo, c⟩
    cases eo <;> simp

theorem processWeights_calls_ge (env : NetEnv) (family format : Str) :
    ∀ (ws : List JsNum) (fs : FS),
    ws.length ≤ (processWeights env fs family format ws).2.2 := by
  intro ws
  induction ws with
  | nil => intro fs; simp [processWeights]
  | cons w t ih =>
    intro fs
    have h1 := processItem_calls_pos env fs family format (render w)
    rcases hi : processItem env fs family format (render w) with ⟨fs1, eo, c1⟩
    have h2 := ih fs1
    rcases hw : processWeights env fs1 family format t with ⟨fs2, es, c2⟩
    rw [hi] at h1
    rw [hw] at h2
    simp only [processWeights, hi, hw, List.length_cons]
    simp at h1 h2
    omega

theorem processFamilies_calls_ge (env : NetEnv) (format : Str) (weights : List JsNum) :
    ∀ (sel : List Str) (fs : FS),
    sel.length * weights.length ≤ (processFamilies env fs format weights sel).2.2 := by
  intro sel
  induction sel with
  | nil => intro fs; simp [processFamilies]
  | cons fam t ih =>
    intro fs
    have h1 := processWeights_calls_ge env fam format weights fs
    rcases hw : processWeights env fs fam format weights with ⟨fs1, es1, c1⟩
    have h2 := ih fs1
    rcases hf : processFamilies env fs1 format weights t with ⟨fs2, es2, c2⟩
    rw [hw] at h1
    rw [hf] at h2
    simp only [processFamilies, hw, hf, List.length_cons]
    simp at h1 h2
    have : (t.length + 1) * weights.length = weights.length + t.length * weights.length := by
      ring
    rw [this]
    omega

theorem processWeights_entries (env : NetEnv) (family format : Str) :
    ∀ (ws : List JsNum) (fs : FS),
    (∀ w ∈ ws, ∀ url, env.resolve format family (render w) = some url →
      (env.fetch url).isSome = true) →
    (processWeights env fs family format ws).2.1
      = ws.filterMap (itemEntry env family format) := by
  intro ws
  induction ws with
  | nil => intro fs _; rfl
  | cons w t ih =>
    intro fs hfetch
    cases hr : env.resolve format family (render w) with
    | none =>
      have hitem := processItem_resolve_none fs hr
      have hie : itemEntry env family format w = none := by
        simp only [itemEntry, hr]
      simp only [processWeights, hitem, List.filterMap_cons, hie]
      rcases hw : processWeights env fs family format t with ⟨fs2, es, c2⟩
      have := ih fs (fun v hv => hfetch v (List.mem_cons_of_mem w hv))
      rw [hw] at this
      simpa using this
    | some url =>
      have hs : (env.fetch url).isSome = true :=
        hfetch w (List.mem_cons_self w t) url hr
      cases hf : env.fetch url with
      | none => rw [hf] at hs; cases hs
      | some b =>
        obtain ⟨fs1, c, hitem⟩ := processItem_success fs hr hf
        have hie : itemEntry env family format w
            = some (entryName family (render w) format) := by
          simp only [itemEntry, hr, hf]
        simp only [processWeights, hitem, List.filterMap_cons, hie]
        rcases hw : processWeights env fs1 family format t with ⟨fs2, es, c2⟩
        have := ih fs1 (fun v hv => hfetch v (List.mem_cons_of_mem w hv))
        rw [hw] at this
        simpa using this

theorem filterMap_length_all_some {α β : Type} (f : α → Option β) :
    ∀ l : List α, (∀ a ∈ l, f a ≠ none) → (l.filterMap f).length = l.length := by
  intro l
  induction l with
  | nil => intro _; rfl
  | cons a t ih =>
    intro h
    cases hf : f a with
    | none => exact absurd hf (h a (List.mem_cons_self a t))
    | some b =>
      simp only [List.filterMap_cons, hf, List.length_cons]
      rw [ih (fun x hx => h x (List.mem_cons_of_mem a hx))]

theorem filterMap_length_one_none {α β : Type} [DecidableEq α] (f : α → Option β) :
    ∀ (l : List α) (x : α), x ∈ l → l.Nodup →
    (∀ a ∈ l, f a = none ↔ a = x) →
    (l.filterMap f).length = l.length - 1 := by
  intro l
  induction l with
  | nil => intro x hx; simp at hx
  | cons a t ih =>
    intro x hx hnd hiff
    rcases List.mem_cons.mp hx with rfl | hx
    · have hfa : f x = none := (hiff x (List.mem_cons_self x t)).mpr rfl
      have hnot : x ∉ t := (List.nodup_cons.mp hnd).1
      simp only [List.filterMap_cons, hfa, List.length_cons]
      rw [filterMap_length_all_some f t]
      · omega
      · intro v hv hvnone
        exact hnot (((hiff v (List.mem_cons_of_mem x hv)).mp hvnone) ▸ hv)
    · have hne : a ≠ x := by
        intro h
        exact (List.nodup_cons.mp hnd).1 (h ▸ hx)
      have hfa : f a ≠ none := fun h => hne ((hiff a (List.mem_cons_self a t)).mp h)
      cases hf : f a with
      | none => exact absurd hf hfa
      | some b =>
        simp only [List.filterMap_cons, hf, List.length_cons]
        rw [ih x hx (List.nodup_cons.mp hnd).2
          (fun v hv => hiff v (List.mem_cons_of_mem a hv))]
        have : 0 < t.length := List.length_pos.mpr (List.ne_nil_of_mem hx)
        omega

theorem entryName_wStr_inj {family format w1 w2 : Str}
    (h : entryName family w1 format = entryName family w2 format) : w1 = w2 := by
  unfold entryName at h
  have h1 := List.append_cancel_right h
  have h2 := List.append_cancel_left h1
  injection h2

/-- C1 (counterexample): after a first retrieval fills the cache for a key,
a second retrieval of the same key with no intervening state change still
performs one network call, because the stylesheet resolution precedes the
cache-existence check; the claimed zero additional network calls is false. -/
theorem cacheHit_counterexample :
    (processItem envAll
      ((processItem envAll [] (("Roboto").data) (("woff2").data) (("400").data)).1)
      (("Roboto").data) (("woff2").data) (("400").data)).2.2 = 1 ∧
    ¬ ((processItem envAll
      ((processItem envAll [] (("Roboto").data) (("woff2").data) (("400").data)).1)
      (("Roboto").data) (("woff2").data) (("400").data)).2.2 = 0) := by
  decide

/-- C1 (amended): when the file for a key already exists, downloadAndSaveFont
makes zero network calls, returns the same path, and leaves the file system
unchanged, and repeating the per-item retrieval returns the identical
outcome; but the per-item retrieval still makes exactly one network call,
the stylesheet resolution that precedes the cache check. -/
theorem cacheHit_one_resolution_call (env : NetEnv) (fs : FS)
    (family format wStr : Str) (b : Bytes)
    (h : fsFind fs (cachePath family wStr format) = some b) :
    (∀ url, downloadAndSaveFont env fs family wStr format url
        = (fs, some (cachePath family wStr format), 0)) ∧
    (processItem env fs family format wStr).1 = fs ∧
    (processItem env fs family format wStr).2.2 = 1 ∧
    processItem env (processItem env fs family format wStr).1 family format wStr
      = processItem env fs family format wStr := by
  have hd : ∀ url, downloadAndSaveFont env fs family wStr format url
      = (fs, some (cachePath family wStr format), 0) :=
    fun url => downloadAndSaveFont_eq_hit env url h
  have hp : (processItem env fs family format wStr).1 = fs ∧
      (processItem env fs family format wStr).2.2 = 1 := by
    cases hr : env.resolve format family wStr with
    | none => simp [processItem_resolve_none fs hr]
    | some url => simp [processItem, hr, hd url]
  refine ⟨hd, hp.1, hp.2, ?_⟩
  rw [hp.1]

/-- Witness for the cache-hit theorem at a concrete key and cache state. -/
theorem cacheHit_one_resolution_call_witness :
    (∀ url, downloadAndSaveFont envAll
        [(cachePath (("Roboto").data) (("400").data) (("woff2").data), [7])]
        (("Roboto").data) (("400").data) (("woff2").data) url
      = ([(cachePath (("Roboto").data) (("400").data) (("woff2").data), [7])],
          some (cachePath (("Roboto").data) (("400").data) (("woff2").data)), 0)) ∧
    (processItem envAll
        [(cachePath (("Roboto").data) (("400").data) (("woff2").data), [7])]
        (("Roboto").data) (("woff2").data) (("400").data)).1
      = [(cachePath (("Roboto").data) (("400").data) (("woff2").data), [7])] ∧
    (processItem envAll
        [(cachePath (("Roboto").data) (("400").data) (("woff2").data), [7])]
        (("Roboto").data) (("woff2").data) (("400").data)).2.2 = 1 ∧
    processItem envAll
        (processItem envAll
          [(cachePath (("Roboto").data) (("400").data) (("woff2").data), [7])]
          (("Roboto").data) (("woff2").data) (("400").data)).1
        (("Roboto").data) (("woff2").data) (("400").data)
      = processItem envAll
          [(cachePath (("Roboto").data) (("400").data) (("woff2").data), [7])]
          (("Roboto").data) (("woff2").data) (("400").data) :=
  cacheHit_one_resolution_call envAll
    [(cachePath (("Roboto").data) (("400").data) (("woff2").data), [7])]
    (("Roboto").data) (("woff2").data) (("400").data) [7] (by decide)

/-- C2: per-item failures are caught and skipped without aborting the
batch: the archive is finalized on every input, zero successes included;
every (family, weight) pair is attempted, costing at least one network
call each; and for one family whose distinct weights all resolve and
fetch except one that fails to resolve, the archive holds exactly one
entry per successful weight and no entry named for the failing weight. -/
theorem streamZip_skip_failed_items :
    (∀ (env : NetEnv) (fs : FS) (sel : List Str) (format : Str) (ws : List JsNum),
      (streamFontsAsZip env fs sel format ws).finalized = true) ∧
    (∀ (env : NetEnv) (fs : FS) (sel : List Str) (format : Str) (ws : List JsNum),
      sel.length * ws.length ≤ (streamFontsAsZip env fs sel format ws).netCalls) ∧
    (∀ (env : NetEnv) (fs : FS) (fam format : Str) (ws : List JsNum) (wBad : JsNum),
      wBad ∈ ws → ws.Nodup →
      env.resolve format fam (render wBad) = none →
      (∀ w ∈ ws, w ≠ wBad → render w ≠ render wBad) →
      (∀ w ∈ ws, w ≠ wBad →
        ∃ url b, env.resolve format fam (render w) = some url ∧
          env.fetch url = some b) →
      (streamFontsAsZip env fs [fam] format ws).entries
          = ws.filterMap (itemEntry env fam format) ∧
      entryName fam (render wBad) format
          ∉ (streamFontsAsZip env fs [fam] format ws).entries ∧
      (streamFontsAsZip env fs [fam] format ws).entries.length = ws.length - 1) := by
  refine ⟨?_, ?_, ?_⟩
  · intro env fs sel format ws
    cases hpf : processFamilies env fs format ws sel with
    | mk fs1 rest => simp [streamFontsAsZip, hpf]
  · intro env fs sel format ws
    have h := processFamilies_calls_ge env format ws sel fs
    cases hpf : processFamilies env fs format ws sel with
    | mk fs1 rest =>
      rw [hpf] at h
      simpa [streamFontsAsZip, hpf] using h
  · intro env fs fam format ws wBad hmem hnd hbad hrender hgood
    have hentries : (streamFontsAsZip env fs [fam] format ws).entries
        = ws.filterMap (itemEntry env fam format) := by
      have hfetch : ∀ w ∈ ws, ∀ url,
          env.resolve format fam (render w) = some url →
          (env.fetch url).isSome = true := by
        intro w hw url hu
        by_cases hwb : w = wBad
        · rw [hwb, hbad] at hu; cases hu
        · obtain ⟨url2, b, hru, hfu⟩ := hgood w hw hwb
          rw [hru] at hu
          injection hu with hu
          rw [← hu, hfu]
          rfl
      have hpe := processWeights_entries env fam format ws fs hfetch
      cases hw : processWeights env fs fam format ws with
      | mk fs1 rest =>
        rcases rest with ⟨es1, c1⟩
        rw [hw] at hpe
        simp only at hpe
        simp [streamFontsAsZip, processFamilies, hw, hpe]
    have hiff : ∀ w ∈ ws, itemEntry env fam format w = none ↔ w = wBad := by
      intro w hw
      constructor
      · intro hnone
        by_contra hwb
        obtain ⟨url, b, hru, hfu⟩ := hgood w hw hwb
        simp only [itemEntry, hru, hfu] at hnone
        exact Option.noConfusion hnone
      · intro hwb
        rw [hwb]
        simp only [itemEntry, hbad]
    refine ⟨hentries, ?_, ?_⟩
    · rw [hentries]
      intro hin
      rcases List.mem_filterMap.mp hin with ⟨w, hw, hsome⟩
      have hwb : w ≠ wBad := by
        intro h
        rw [(hiff w hw).mpr h] at hsome
        cases hsome
      have hval : itemEntry env fam format w
          = some (entryName fam (render w) format) := by
        obtain ⟨url, b, hru, hfu⟩ := hgood w hw hwb
        simp only [itemEntry, hru, hfu]
      rw [hval] at hsome
      injection hsome with hsome
      exact hrender w hw hwb (entryName_wStr_inj hsome)
    · rw [hentries]
      exact filterMap_length_one_none (itemEntry env fam format) ws wBad hmem hnd hiff

/-- Witness for the batch-isolation theorem: nine distinct weights, weight
200 failing to resolve, eight entries and none for weight 200. -/
theorem streamZip_skip_failed_items_witness :
    (streamFontsAsZip envSkip200 [] [("Abel").data] (("woff2").data)
        [some 100, some 200, some 300, some 400, some 500, some 600, some 700,
          some 800, some 900]).entries
      = [some 100, some 200, some 300, some 400, some 500, some 600, some 700,
          some 800, some 900].filterMap
          (itemEntry envSkip200 (("Abel").data) (("woff2").data)) ∧
    entryName (("Abel").data) (render (some 200)) (("woff2").data)
      ∉ (streamFontsAsZip envSkip200 [] [("Abel").data] (("woff2").data)
        [some 100, some 200, some 300, some 400, some 500, some 600, some 700,
          some 800, some 900]).entries ∧
    (streamFontsAsZip envSkip200 [] [("Abel").data] (("woff2").data)
        [some 100, some 200, some 300, some 400, some 500, some 600, some 700,
          some 800, some 900]).entries.length
      = [some 100, some 200, some 300, some 400, some 500, some 600, some 700,
          some 800, some 900].length - 1 :=
  streamZip_skip_failed_items.2.2 envSkip200 [] (("Abel").data) (("woff2").data)
    [some 100, some 200, some 300, some 400, some 500, some 600, some 700,
      some 800, some 900] (some 200)
    (by decide) (by decide) (by decide) (by decide)
    (fun w hw hne =>
      ⟨render w, [1], by fin_cases hw <;> first | exact absurd rfl hne | decide, rfl⟩)

/-- C3 (counterexample): for the weights query 700,abc,42 the parsed list
keeps the unparsable token as NaN and keeps the out-of-enum 42, so the
list passed onward does not contain only valid weights and nothing was
dropped. -/
theorem parseWeights_keeps_invalid_tokens :
    parseWeights (some (("700,abc,42").data)) = [some 700, none, some 42] ∧
    ¬ (∀ w ∈ parseWeights (some (("700,abc,42").data)), ∃ n : Int,
        w = some n ∧ 100 ≤ n ∧ n ≤ 900 ∧ n % 100 = 0) := by
  refine ⟨by decide, ?_⟩
  intro h
  rcases h none (by decide) with ⟨n, hn, _⟩
  cases hn

/-- C3 (amended): a falsy weights parameter, absent or the empty string,
defaults to all nine weights; any other value is split on commas and every
token is mapped through parseInt, never failing the request and never
dropping a token: exactly one value per comma-separated token, an
unparsable token staying as NaN. -/
theorem parseWeights_spec :
    parseWeights none = [some 100, some 200, some 300, some 400, some 500,
      some 600, some 700, some 800, some 900] ∧
    parseWeights (some []) = [some 100, some 200, some 300, some 400, some 500,
      some 600, some 700, some 800, some 900] ∧
    (∀ s : Str, s ≠ [] → (parseWeights (some s)).length = (splitComma s).length) ∧
    jsParseInt (("abc").data) = none ∧
    jsParseInt (("42").data) = some 42 := by
  refine ⟨by decide, by decide, ?_, by decide, by decide⟩
  intro s hs
  have hfalsy : jsFalsy (some s) = false := by
    cases s with
    | nil => exact absurd rfl hs
    | cons c cs => rfl
  simp [parseWeights, hfalsy]

/-- Witness: the three-token weights value parses to three values. -/
theorem parseWeights_spec_witness :
    (parseWeights (some (("700,abc,42").data))).length
      = (splitComma (("700,abc,42").data)).length :=
  parseWeights_spec.2.2.1 (("700,abc,42").data) (by decide)

/-- C4 (counterexample): the distinct families 1 2 and 1-2, both fixed
points of normalization, derive the same cache path and the same archive
entry name, so the derivation is not injective on normalized keys. -/
theorem entryName_not_injective :
    normalize (("1 2").data) = some (("1 2").data) ∧
    normalize (("1-2").data) = some (("1-2").data) ∧
    (("1 2").data : Str) ≠ ("1-2").data ∧
    entryName (("1 2").data) (("700").data) (("woff2").data)
      = entryName (("1-2").data) (("700").data) (("woff2").data) ∧
    cachePath (("1 2").data) (("700").data) (("woff2").data)
      = cachePath (("1-2").data) (("700").data) (("woff2").data) := by
  decide

/-- C4 (amended): the derivation of cache path and entry name is a pure
function that uses the hyphenated family consistently in the directory and
the filename, produces the documented result for Open Sans weight 700
woff2, and is injective in the weight component for a fixed family and
format; it is not injective in the family component. -/
theorem entryName_spec :
    (∀ family wStr format : Str,
      cachePath family wStr format = FONTS_DIR ++ '/' :: entryName family wStr format) ∧
    entryName (("Open Sans").data) (("700").data) (("woff2").data)
      = ("Open-Sans/Open-Sans-700.woff2").data ∧
    cachePath (("Open Sans").data) (("700").data) (("woff2").data)
      = ("D:/fonts-cache/Open-Sans/Open-Sans-700.woff2").data ∧
    (∀ family format w1 w2 : Str,
      entryName family w1 format = entryName family w2 format → w1 = w2) := by
  refine ⟨?_, by decide, by decide, fun _ _ _ _ h => entryName_wStr_inj h⟩
  intro family wStr format
  simp [cachePath, entryName, List.append_assoc]

/-- Witness for the naming theorem at concrete inputs. -/
theorem entryName_spec_witness :
    cachePath (("Open Sans").data) (("700").data) (("woff2").data)
      = FONTS_DIR ++ '/' :: entryName (("Open Sans").data) (("700").data) (("woff2").data) ∧
    (("700").data : Str) = ("700").data :=
  ⟨entryName_spec.1 (("Open Sans").data) (("700").data) (("woff2").data),
    entryName_spec.2.2.2 (("Abel").data) (("woff2").data) (("700").data) (("700").data) rfl⟩

/-! Lemmas about pickRun. -/

theorem getD_mem_of_lt {α : Type} : ∀ (l : List α) (i : Nat) (d : α),
    i < l.length → l.getD i d ∈ l := by
  intro l
  induction l with
  | nil => intro i d h; simp at h
  | cons a t ih =>
    intro i d h
    cases i with
    | zero => simp
    | succ j =>
      rw [List.getD_cons_succ]
      exact List.mem_cons_of_mem a (ih j d (by simpa using h))

theorem getD_eq_get {α : Type} : ∀ (l : List α) (i : Nat) (d : α) (h : i < l.length),
    l.getD i d = l.get ⟨i, h⟩ := by
  intro l
  induction l with
  | nil => intro i d h; simp at h
  | cons a t ih =>
    intro i d h
    cases i with
    | zero => rfl
    | succ j => exact ih j d (by simpa using h)

theorem nodup_append_singleton {α : Type} {l : List α} {x : α}
    (hnd : l.Nodup) (hx : x ∉ l) : (l ++ [x]).Nodup := by
  induction l with
  | nil => simp
  | cons a t ih =>
    rcases List.nodup_cons.mp hnd with ⟨ha, ht⟩
    have hxa : x ∉ t := fun h => hx (List.mem_cons_of_mem a h)
    have hax : a ≠ x := fun h => hx (h ▸ List.mem_cons_self a t)
    simp only [List.cons_append, List.nodup_cons]
    constructor
    · intro hmem
      rcases List.mem_append.mp hmem with h | h
      · exact ha h
      · exact hax (List.mem_singleton.mp h)
    · exact ih ht hxa

theorem pickRun_sound (fontList : List Str) (n : Nat) (r : Nat → Nat) :
    ∀ (fuel k : Nat) (picked res : List Str),
    pickRun fontList n r fuel k picked = some res →
    0 < fontList.length →
    picked.Nodup → (∀ x ∈ picked, x ∈ fontList) → picked.length ≤ n →
    res.length = n ∧ res.Nodup ∧ ∀ x ∈ res, x ∈ fontList := by
  intro fuel
  induction fuel with
  | zero => intro k picked res h; cases h
  | succ fuel ih =>
    intro k picked res h hlen hnd hsub hle
    simp only [pickRun] at h
    by_cases hlt : picked.length < n
    · rw [if_pos hlt] at h
      by_cases hx : fontList.getD (r k % fontList.length) [] ∈ picked
      · rw [if_pos hx] at h
        exact ih _ _ _ h hlen hnd hsub hle
      · rw [if_neg hx] at h
        refine ih _ _ _ h hlen ?_ ?_ ?_
        · exact nodup_append_singleton hnd hx
        · intro y hy
          rcases List.mem_append.mp hy with hy | hy
          · exact hsub y hy
          · rw [List.mem_singleton.mp hy]
            exact getD_mem_of_lt _ _ _ (Nat.mod_lt _ hlen)
        · simpa using hlt
    · rw [if_neg hlt] at h
      injection h with h
      subst h
      exact ⟨Nat.le_antisymm hle (Nat.le_of_not_lt hlt), hnd, hsub⟩

theorem pickRun_reaches (fontList : List Str) (n : Nat) (r : Nat → Nat)
    (hlen : 0 < fontList.length) (hnd : fontList.Nodup) (hn : n ≤ fontList.length)
    (hfair : ∀ i < fontList.length, ∀ m, ∃ j, m ≤ j ∧ r j % fontList.length = i) :
    ∀ (d : Nat) (picked : List Str) (k : Nat), n - picked.length = d →
    picked.Nodup → (∀ x ∈ picked, x ∈ fontList) →
    ∃ fuel res, pickRun fontList n r fuel k picked = some res := by
  intro d
  induction d with
  | zero =>
    intro picked k hd hnd2 hsub
    refine ⟨1, picked, ?_⟩
    have hnlt : ¬ picked.length < n := by omega
    simp [pickRun, hnlt]
  | succ d ihd =>
    intro picked k hd hnd2 hsub
    have hlt : picked.length < n := by omega
    have hmiss : ∃ e ∈ fontList, e ∉ picked := by
      by_contra hall
      push_neg at hall
      have hsp := List.subperm_of_subset hnd (fun e he => hall e he)
      have := hsp.length_le
      omega
    obtain ⟨e, he, hep⟩ := hmiss
    obtain ⟨i, hget⟩ := List.mem_iff_get.mp he
    obtain ⟨j, hkj, hj⟩ := hfair i.1 i.2 k
    have key : ∀ (dist k2 : Nat) (picked2 : List Str), j - k2 = dist → k2 ≤ j →
        picked2.Nodup → (∀ x ∈ picked2, x ∈ fontList) →
        n - picked2.length = d + 1 → e ∉ picked2 →
        ∃ fuel res, pickRun fontList n r fuel k2 picked2 = some res := by
      intro dist
      induction dist with
      | zero =>
        intro k2 picked2 hdist hk2 hnd3 hsub3 hd3 hep3
        have hk2j : k2 = j := by omega
        subst hk2j
        have hx : fontList.getD (r k2 % fontList.length) [] = e := by
          rw [hj, getD_eq_get fontList i.1 [] i.2]
          simpa using hget
        have hlt2 : picked2.length < n := by omega
        obtain ⟨fuel, res, hrun⟩ := ihd (picked2 ++ [e]) (k2 + 1)
          (by simp; omega)
          (nodup_append_singleton hnd3 hep3)
          (by intro y hy
              rcases List.mem_append.mp hy with hy | hy
              · exact hsub3 y hy
              · rw [List.mem_singleton.mp hy]; exact he)
        refine ⟨fuel + 1, res, ?_⟩
        simp only [pickRun, if_pos hlt2, hx, if_neg hep3]
        exact hrun
      | succ dist ihdist =>
        intro k2 picked2 hdist hk2 hnd3 hsub3 hd3 hep3
        have hlt2 : picked2.length < n := by omega
        by_cases hx : fontList.getD (r k2 % fontList.length) [] ∈ picked2
        · obtain ⟨fuel, res, hrun⟩ := ihdist (k2 + 1) picked2 (by omega) (by omega)
            hnd3 hsub3 hd3 hep3
          refine ⟨fuel + 1, res, ?_⟩
          simp only [pickRun, if_pos hlt2, if_pos hx]
          exact hrun
        · have hxmem : fontList.getD (r k2 % fontList.length) [] ∈ fontList :=
            getD_mem_of_lt _ _ _ (Nat.mod_lt _ hlen)
          obtain ⟨fuel, res, hrun⟩ := ihd (picked2 ++ [fontList.getD (r k2 % fontList.length) []])
            (k2 + 1)
            (by simp; omega)
            (nodup_append_singleton hnd3 hx)
            (by intro y hy
                rcases List.mem_append.mp hy with hy | hy
                · exact hsub3 y hy
                · rw [List.mem_singleton.mp hy]; exact hxmem)
          refine ⟨fuel + 1, res, ?_⟩
          simp only [pickRun, if_pos hlt2, if_neg hx]
          exact hrun
    exact key (j - k) k picked rfl hkj hnd2 hsub hd hep

/-- C5: for a duplicate-free catalog and any n with 1 ≤ n ≤ catalog size,
run with a random index sequence that keeps hitting every index (as a fair
random source does with probability one), pickRandomFonts terminates and
returns exactly n distinct elements, each a member of the catalog. -/
theorem pickRandomFonts_spec (fontList : List Str) (n : Nat) (r : Nat → Nat)
    (hnd : fontList.Nodup) (hn1 : 1 ≤ n) (hn : n ≤ fontList.length)
    (hfair : ∀ i < fontList.length, ∀ m, ∃ j, m ≤ j ∧ r j % fontList.length = i) :
    ∃ fuel res, pickRandomFonts fontList n r fuel = some res ∧
      res.length = n ∧ res.Nodup ∧ ∀ x ∈ res, x ∈ fontList := by
  have hlen : 0 < fontList.length := Nat.lt_of_lt_of_le hn1 hn
  obtain ⟨fuel, res, hrun⟩ := pickRun_reaches fontList n r hlen hnd hn hfair n [] 0
    (by simp) (by simp) (by simp)
  obtain ⟨h1, h2, h3⟩ := pickRun_sound fontList n r fuel 0 [] res hrun hlen
    (by simp) (by simp) (by simp)
  exact ⟨fuel, res, hrun, h1, h2, h3⟩

/-- Witness for the random-selection theorem: a three-element catalog, a
request for two fonts, and the identity sequence as random source. -/
theorem pickRandomFonts_spec_witness :
    ∃ fuel res,
      pickRandomFonts [("a").data, ("b").data, ("c").data] 2 (fun j => j) fuel
        = some res ∧
      res.length = 2 ∧ res.Nodup ∧
      ∀ x ∈ res, x ∈ [("a").data, ("b").data, ("c").data] :=
  pickRandomFonts_spec [("a").data, ("b").data, ("c").data] 2 (fun j => j)
    (by decide) (by decide) (by decide)
    (fun i hi m =>
      ⟨i + 3 * m, by omega, by simp only [List.length_cons, List.length_nil] at hi ⊢; omega⟩)

/-! Handler-level theorems. -/

theorem dropWhile_ws_all {l : Str} (h : ∀ c ∈ l, c.isWhitespace = true) :
    l.dropWhile Char.isWhitespace = [] := by
  induction l with
  | nil => rfl
  | cons c cs ih =>
    rw [List.dropWhile_cons, if_pos (by simp [h c (List.mem_cons_self c cs)])]
    exact ih (fun d hd => h d (List.mem_cons_of_mem c hd))

theorem normalize_ws_only {nm : Str} (h : ∀ c ∈ nm, c.isWhitespace = true) :
    normalize nm = none := by
  have h1 : trimLeft nm = [] := dropWhile_ws_all h
  have h2 : jsTrim nm = [] := by unfold jsTrim; rw [h1]; rfl
  unfold normalize
  rw [h2]
  rfl

/-- C7: with a valid format, downloadByName fails with the 400 validation
response when the name is missing or empty; with a normalizable name it
fails with 404 exactly when the normalized name is absent from the
catalog, in both cases before any streaming or network activity; and when
the name is present it streams a finalized archive whose entries are
exactly the weights that successfully resolved and fetched. -/
theorem downloadByName_spec
    (env : NetEnv) (fs : FS) (fontList : List Str)
    (formatQ nameQ weightsQ : Option Str)
    (hfmt : validFormat formatQ = true) :
    (jsFalsy nameQ = true →
      downloadByName env fs fontList formatQ nameQ weightsQ
        = ⟨.error 400 nameRequiredMsg, fs, 0⟩) ∧
    (∀ nm nn, nameQ = some nm → jsFalsy nameQ = false → normalize nm = some nn →
      (((downloadByName env fs fontList formatQ nameQ weightsQ).response
          = .error 404 notFoundMsg) ↔ nn ∉ fontList) ∧
      (nn ∉ fontList →
        downloadByName env fs fontList formatQ nameQ weightsQ
          = ⟨.error 404 notFoundMsg, fs, 0⟩) ∧
      (nn ∈ fontList →
        (∀ w ∈ parseWeights weightsQ, ∀ url,
            env.resolve (formatQ.getD []) nn (render w) = some url →
            (env.fetch url).isSome = true) →
        (downloadByName env fs fontList formatQ nameQ weightsQ).response
          = .zip ((parseWeights weightsQ).filterMap
              (itemEntry env nn (formatQ.getD []))) true)) := by
  constructor
  · intro hfalsy
    simp [downloadByName, hfmt, hfalsy]
  · intro nm nn hnm hfalsy hnorm
    subst hnm
    by_cases hmem : nn ∈ fontList
    · cases hpw : processWeights env fs nn (formatQ.getD []) (parseWeights weightsQ) with
      | mk fs1 rest =>
        rcases rest with ⟨es, c⟩
        have hout : downloadByName env fs fontList formatQ (some nm) weightsQ
            = ⟨.zip es true, fs1, c⟩ := by
          simp [downloadByName, hfmt, hfalsy, hnorm, hmem, hpw]
        refine ⟨?_, fun habs => absurd hmem habs, ?_⟩
        · rw [hout]; simp [hmem]
        · intro _ hfetch
          have hpe := processWeights_entries env nn (formatQ.getD [])
            (parseWeights weightsQ) fs hfetch
          rw [hpw] at hpe
          simp only at hpe
          rw [hout]
          simp [hpe]
    · have hout : downloadByName env fs fontList formatQ (some nm) weightsQ
          = ⟨.error 404 notFoundMsg, fs, 0⟩ := by
        simp [downloadByName, hfmt, hfalsy, hnorm, hmem]
      refine ⟨?_, fun _ => hout, fun habs _ => absurd habs hmem⟩
      rw [hout]
      simp [hmem]

/-- Witness: a catalog holding Roboto, the name roboto normalizing to it,
and an environment where nothing resolves, yielding an empty archive. -/
theorem downloadByName_spec_witness :
    (downloadByName envNone [] [("Roboto").data] (some (("woff2").data))
        (some (("roboto").data)) none).response
      = .zip ((parseWeights none).filterMap
          (itemEntry envNone (("Roboto").data) (("woff2").data))) true :=
  ((downloadByName_spec envNone [] [("Roboto").data] (some (("woff2").data))
      (some (("roboto").data)) none (by decide)).2
    (("roboto").data) (("Roboto").data) rfl (by decide) (by decide)).2.2
    (by decide) (fun w hw url hr => Option.noConfusion hr)

/-- C8: an invalid format token on either endpoint yields the 400
validation response with zero network calls and an untouched file system,
before any other processing. -/
theorem invalidFormat_no_network
    (env : NetEnv) (fs : FS) (fontList : List Str) (r : Nat → Nat) (fuel : Nat)
    (formatQ countQ weightsQ nameQ : Option Str)
    (h : validFormat formatQ = false) :
    downloadRandom env fs fontList r fuel formatQ countQ weightsQ
      = some ⟨.error 400 invalidFormatMsg, fs, 0⟩ ∧
    downloadByName env fs fontList formatQ nameQ weightsQ
      = ⟨.error 400 invalidFormatMsg, fs, 0⟩ := by
  constructor
  · simp [downloadRandom, h]
  · simp [downloadByName, h]

/-- Witness: the format token otf is rejected by both endpoints with no
network calls. -/
theorem invalidFormat_no_network_witness :
    downloadRandom envAll [] [] (fun j => j) 0 (some (("otf").data)) none none
      = some ⟨.error 400 invalidFormatMsg, [], 0⟩ ∧
    downloadByName envAll [] [] (some (("otf").data)) none none
      = ⟨.error 400 invalidFormatMsg, [], 0⟩ :=
  invalidFormat_no_network envAll [] [] (fun j => j) 0 (some (("otf").data))
    none none none (by decide)

/-- C10: a name consisting only of whitespace passes the truthiness check,
normalization then hits the undefined first character of an empty word,
and the request ends as a 500 server error rather than a 400 validation
error. -/
theorem whitespaceName_server_error
    (env : NetEnv) (fs : FS) (fontList : List Str) (formatQ weightsQ : Option Str)
    (nm : Str) (hfmt : validFormat formatQ = true) (hne : nm ≠ [])
    (hws : ∀ c ∈ nm, c.isWhitespace = true) :
    downloadByName env fs fontList formatQ (some nm) weightsQ
      = ⟨.error 500 typeErrorMsg, fs, 0⟩ := by
  have hfalsy : jsFalsy (some nm) = false := by
    cases nm with
    | nil => exact absurd rfl hne
    | cons c cs => rfl
  simp [downloadByName, hfmt, hfalsy, normalize_ws_only hws]

/-- Witness: the one-space name yields the 500 response. -/
theorem whitespaceName_server_error_witness :
    downloadByName envAll [] [] (some (("woff2").data)) (some ((" ").data)) none
      = ⟨.error 500 typeErrorMsg, [], 0⟩ :=
  whitespaceName_server_error envAll [] [] (some (("woff2").data)) none ((" ").data)
    (by decide) (by decide) (by decide)

/-- C9 (counterexample): a concrete cache fill writes the fetched bytes in
a single direct write to the final cache path: its write trace holds no
write to a temporary location followed by a rename onto the final path,
so the claimed temporary-write-then-atomic-publish discipline is absent. -/
theorem persist_no_temp_publish :
    downloadAndSaveFontOps envAll [] (("Roboto").data) (("400").data)
        (("woff2").data) (("u").data)
      = [FsOp.write (cachePath (("Roboto").data) (("400").data) (("woff2").data)) [9]] ∧
    ¬ tempThenPublish
        (downloadAndSaveFontOps envAll [] (("Roboto").data) (("400").data)
          (("woff2").data) (("u").data))
        (cachePath (("Roboto").data) (("400").data) (("woff2").data)) := by
  have hops : downloadAndSaveFontOps envAll [] (("Roboto").data) (("400").data)
        (("woff2").data) (("u").data)
      = [FsOp.write (cachePath (("Roboto").data) (("400").data) (("woff2").data)) [9]] := by
    decide
  refine ⟨hops, ?_⟩
  rw [hops]
  rintro ⟨i, j, hij, tmp, bytes, hne, hwi, hwj⟩
  have h1 : (j : Nat) < 1 := j.isLt
  omega

/-- C9 (amended): on a miss with a successful fetch the persist step is
exactly one direct write of the fetched bytes to the final cache path, and
on a hit no write happens at all, so repeating a fill for the same key is
idempotent at whole-operation level; no temporary location or rename is
involved. -/
theorem persist_direct_write (env : NetEnv) (fs : FS) (family wStr format url : Str) :
    (∀ b, fsFind fs (cachePath family wStr format) = none →
      env.fetch url = some b →
      downloadAndSaveFontOps env fs family wStr format url
        = [FsOp.write (cachePath family wStr format) b] ∧
      downloadAndSaveFont env fs family wStr format url
        = ((cachePath family wStr format, b) :: fs,
            some (cachePath family wStr format), 1)) ∧
    (∀ b, fsFind fs (cachePath family wStr format) = some b →
      downloadAndSaveFontOps env fs family wStr format url = [] ∧
      downloadAndSaveFont env fs family wStr format url
        = (fs, some (cachePath family wStr format), 0)) := by
  constructor
  · intro b hmiss hf
    constructor
    · simp only [downloadAndSaveFontOps]
      rw [hmiss, hf]
    · exact downloadAndSaveFont_eq_miss_fetch hmiss hf
  · intro b hhit
    constructor
    · simp only [downloadAndSaveFontOps]
      rw [hhit]
    · exact downloadAndSaveFont_eq_hit env url hhit

/-- Witness: one concrete fill writes the final path directly, and the
repeat on the filled cache writes nothing. -/
theorem persist_direct_write_witness :
    downloadAndSaveFontOps envAll [] (("Abel").data) (("400").data)
        (("woff2").data) (("u").data)
      = [FsOp.write (cachePath (("Abel").data) (("400").data) (("woff2").data)) [9]] ∧
    downloadAndSaveFontOps envAll
        [(cachePath (("Abel").data) (("400").data) (("woff2").data), [9])]
        (("Abel").data) (("400").data) (("woff2").data) (("u").data) = [] :=
  ⟨((persist_direct_write envAll [] (("Abel").data) (("400").data)
      (("woff2").data) (("u").data)).1 [9] (by decide) rfl).1,
   ((persist_direct_write envAll
      [(cachePath (("Abel").data) (("400").data) (("woff2").data), [9])]
      (("Abel").data) (("400").data) (("woff2").data) (("u").data)).2 [9] (by decide)).1⟩
